import Mathlib

/-!
Verification development for the image-analysis transformation engine of the image-analysis toolkit.
The Python sources embedded here are src/transformations/border.py and
src/models/image.py.  NumPy arrays of per-pixel values are modelled either
pointwise (elementwise array expressions become scalar functions of the values
at one pixel) or as functions from coordinates to values; machine floats are modelled
by exact rationals.
-/

namespace Ati

/-- COLOR_DEPTH constant, src/models/image.py line 16. -/
def COLOR_DEPTH : Int := 256

/-- MAX_COLOR constant, src/models/image.py line 17. -/
def MAX_COLOR : Int := COLOR_DEPTH - 1

/-! ## Harris response functions (border.py lines 352-363).
All operations in `calculate_r1`/`calculate_r2` are elementwise over the
`ix2`/`ixy`/`iy2` arrays, so the output at one pixel depends only on the
three inputs at that pixel and the scalar `k`; we embed them per pixel. -/

/-- calculate_r1, border.py lines 352-357. -/
def calculate_r1 (ix2 ixy iy2 k : ℚ) : ℚ :=
  let det := ix2 * iy2 - ixy * ixy
  let sum := ix2 + iy2
  let trace := sum * sum
  det - k * trace

/-- calculate_r2, border.py lines 359-363. -/
def calculate_r2 (ix2 ixy iy2 k : ℚ) : ℚ :=
  let det := ix2 * iy2 - ixy * 4
  let sum := ix2 + iy2
  det - k * sum * sum

/-- The R2 formula exactly as claim C1 states it: simplified determinant minus
`k` times the UNSQUARED trace `ix2 + iy2`. -/
def c1_claimed_r2 (ix2 ixy iy2 k : ℚ) : ℚ :=
  (ix2 * iy2 - 4 * ixy) - k * (ix2 + iy2)

/-- C1 counterexample: at `ix2 = 1, ixy = 0, iy2 = 1, k = 1` the code computes
`det - k * sum * sum = 1 - 4 = -3`, while the claimed formula with the trace
left unsquared gives `1 - 2 = -1`; the equation of the claim fails at this input. -/
theorem c1_r2_trace_not_unsquared :
    calculate_r2 1 0 1 1 = -3 ∧ c1_claimed_r2 1 0 1 1 = -1 ∧
      calculate_r2 1 0 1 1 ≠ c1_claimed_r2 1 0 1 1 := by
  refine ⟨by norm_num [calculate_r2], by norm_num [c1_claimed_r2], ?_⟩
  norm_num [calculate_r2, c1_claimed_r2]

/-- C1 amended: for every input pixel and constant `k`,
`calculate_r2 ix2 ixy iy2 k = (ix2 * iy2 - 4 * ixy) - k * (ix2 + iy2) ^ 2`:
the determinant is the simplified `Ix2 * Iy2 - 4 * IxIy`, but the trace
`Ix2 + Iy2` IS squared, exactly as in the R1 variant. -/
theorem c1_r2_amended (ix2 ixy iy2 k : ℚ) :
    calculate_r2 ix2 ixy iy2 k = (ix2 * iy2 - 4 * ixy) - k * (ix2 + iy2) ^ 2 := by
  unfold calculate_r2
  ring

/-! ## High-pass kernel (border.py lines 143-146).
`high_pass_channel` builds `np.full((n, n), -1/n)` and then overwrites the
single cell at index `(n // 2, n // 2)`; we embed the resulting kernel
pointwise. -/

/-- The kernel built by high_pass_channel, border.py lines 144-145. -/
def high_pass_kernel (n : Nat) : Nat → Nat → ℚ := fun i j =>
  if i = n / 2 ∧ j = n / 2 then ((n : ℚ) ^ 2 - 1) / n else -1 / n

/-- C9: for every kernel size `n ≥ 1`, the high-pass kernel holds
`(n ^ 2 - 1) / n` at its center cell `(n / 2, n / 2)` and `-1 / n` at every
other cell, and for odd `n` all of its entries sum to zero. -/
theorem c9_high_pass_kernel_spec (n : Nat) (hn : 1 ≤ n) :
    high_pass_kernel n (n / 2) (n / 2) = ((n : ℚ) ^ 2 - 1) / n ∧
    (∀ i j, i < n → j < n → ¬(i = n / 2 ∧ j = n / 2) →
      high_pass_kernel n i j = -1 / n) ∧
    (Odd n →
      ∑ i in Finset.range n, ∑ j in Finset.range n, high_pass_kernel n i j = 0) := by
  have hnQ : (n : ℚ) ≠ 0 := Nat.cast_ne_zero.mpr (by omega)
  have hc : n / 2 < n := Nat.div_lt_self (by omega) (by norm_num)
  have hcm : n / 2 ∈ Finset.range n := Finset.mem_range.mpr hc
  refine ⟨by simp [high_pass_kernel], ?_, ?_⟩
  · intro i j _ _ hij
    simp [high_pass_kernel, hij]
  · intro _
    have hrow : ∀ i, ∑ j in Finset.range n, high_pass_kernel n i j =
        -1 + (if i = n / 2 then (n : ℚ) else 0) := by
      intro i
      by_cases hi : i = n / 2
      · subst hi
        have hsplit : ∀ j ∈ Finset.range n, high_pass_kernel n (n / 2) j =
            -1 / n + (if j = n / 2 then (n : ℚ) else 0) := by
          intro j _
          by_cases hj : j = n / 2
          · subst hj
            simp only [high_pass_kernel, if_pos (And.intro rfl rfl), if_pos rfl]
            field_simp
            ring
          · simp [high_pass_kernel, hj]
        rw [Finset.sum_congr rfl hsplit, Finset.sum_add_distrib, Finset.sum_const,
          Finset.card_range, nsmul_eq_mul,
          Finset.sum_ite_eq' (Finset.range n) (n / 2), if_pos hcm, if_pos rfl]
        field_simp
      · have hall : ∀ j ∈ Finset.range n, high_pass_kernel n i j = -1 / n := by
          intro j _
          simp [high_pass_kernel, hi]
        rw [Finset.sum_congr rfl hall, Finset.sum_const, Finset.card_range,
          nsmul_eq_mul, if_neg hi, add_zero]
        field_simp
    rw [Finset.sum_congr rfl fun i _ => hrow i, Finset.sum_add_distrib,
      Finset.sum_const, Finset.card_range, nsmul_eq_mul,
      Finset.sum_ite_eq' (Finset.range n) (n / 2), if_pos hcm]
    ring

/-- C9 witness at `n = 3`: the center cell is `8 / 3`, an off-center cell is
`-1 / 3`, and the nine entries sum to zero. -/
theorem c9_high_pass_kernel_spec_witness :
    high_pass_kernel 3 1 1 = 8 / 3 ∧ high_pass_kernel 3 0 2 = -1 / 3 ∧
      ∑ i in Finset.range 3, ∑ j in Finset.range 3, high_pass_kernel 3 i j = 0 := by
  obtain ⟨h1, h2, h3⟩ := c9_high_pass_kernel_spec 3 (by norm_num)
  norm_num at h1
  refine ⟨h1, ?_, h3 (Nat.odd_iff.mpr rfl)⟩
  simpa using h2 0 2 (by norm_num) (by norm_num) (by norm_num)

/-! ## Zero-crossing border detection (border.py lines 160-186).
The vectorised statements are embedded pointwise: row `i` of
`ans[:-1] = ...` covers exactly the pixels with `i + 1 < H`, row `i` of
`ans[:-2] |= ...` covers those with `i + 2 < H`, and `ans[-1] = False` is
subsumed by those bound guards (no condition can fire on the last row).
Pixel values are the integer-valued outputs of the preceding filter. -/

/-- zero_crossing_vertical, border.py lines 160-169, as the per-pixel boolean
mask. -/
def zero_crossing_vertical (H : Nat) (data : Nat → Nat → Int) (threshold : Int)
    (i j : Nat) : Bool :=
  decide (i + 1 < H ∧ data i j * data (i + 1) j < 0 ∧
      threshold < |data i j - data (i + 1) j|)
  || decide (i + 2 < H ∧ data i j * data (i + 2) j < 0 ∧ data (i + 1) j = 0 ∧
      threshold < |data i j - data (i + 2) j|)

/-- zero_crossing_horizontal, border.py lines 171-180, as the per-pixel boolean
mask. -/
def zero_crossing_horizontal (W : Nat) (data : Nat → Nat → Int) (threshold : Int)
    (i j : Nat) : Bool :=
  decide (j + 1 < W ∧ data i j * data i (j + 1) < 0 ∧
      threshold < |data i j - data i (j + 1)|)
  || decide (j + 2 < W ∧ data i j * data i (j + 2) < 0 ∧ data i (j + 1) = 0 ∧
      threshold < |data i j - data i (j + 2)|)

/-- zero_crossing_borders, border.py lines 182-186: union the two masks, then
return MAX_COLOR on the mask and 0 elsewhere. -/
def zero_crossing_borders (H W : Nat) (data : Nat → Nat → Int) (threshold : Int)
    (i j : Nat) : Int :=
  if zero_crossing_vertical H data threshold i j
      || zero_crossing_horizontal W data threshold i j then MAX_COLOR else 0

/-- The border condition exactly as claim C7 states it: (a) the pixel and its
immediate vertical or horizontal successor have opposite sign and their
absolute difference strictly exceeds the threshold, or (b) the pixel and the
pixel two cells away (vertically or horizontally) have opposite sign with an
exact zero between them and their absolute difference strictly exceeds the
threshold. -/
def c7_border_condition (H W : Nat) (data : Nat → Nat → Int) (threshold : Int)
    (i j : Nat) : Prop :=
  (i + 1 < H ∧ ((0 < data i j ∧ data (i + 1) j < 0) ∨ (data i j < 0 ∧ 0 < data (i + 1) j)) ∧
      threshold < |data i j - data (i + 1) j|) ∨
  (j + 1 < W ∧ ((0 < data i j ∧ data i (j + 1) < 0) ∨ (data i j < 0 ∧ 0 < data i (j + 1))) ∧
      threshold < |data i j - data i (j + 1)|) ∨
  (i + 2 < H ∧ ((0 < data i j ∧ data (i + 2) j < 0) ∨ (data i j < 0 ∧ 0 < data (i + 2) j)) ∧
      data (i + 1) j = 0 ∧ threshold < |data i j - data (i + 2) j|) ∨
  (j + 2 < W ∧ ((0 < data i j ∧ data i (j + 2) < 0) ∨ (data i j < 0 ∧ 0 < data i (j + 2))) ∧
      data i (j + 1) = 0 ∧ threshold < |data i j - data i (j + 2)|)

/-- Propositional regrouping of the four border sub-conditions: the claim lists
them interleaved while the code unions the vertical pair and the horizontal
pair. -/
theorem or_regroup {A B C D : Prop} : A ∨ B ∨ C ∨ D ↔ (A ∨ C) ∨ (B ∨ D) := by
  tauto

instance c7_border_condition_decidable (H W : Nat) (data : Nat → Nat → Int)
    (threshold : Int) (i j : Nat) :
    Decidable (c7_border_condition H W data threshold i j) := by
  unfold c7_border_condition
  infer_instance

/-- C7: a pixel of the zero-crossing output is MAX_COLOR exactly when the
claimed border condition holds there and 0 otherwise, for every data array,
threshold, and pixel. -/
theorem c7_zero_crossing_spec (H W : Nat) (data : Nat → Nat → Int)
    (threshold : Int) (i j : Nat) :
    zero_crossing_borders H W data threshold i j =
      if c7_border_condition H W data threshold i j then MAX_COLOR else 0 := by
  have hiff : c7_border_condition H W data threshold i j ↔
      (zero_crossing_vertical H data threshold i j
        || zero_crossing_horizontal W data threshold i j) = true := by
    simp only [c7_border_condition, zero_crossing_vertical,
      zero_crossing_horizontal, Bool.or_eq_true, decide_eq_true_eq, mul_neg_iff]
    exact or_regroup
  unfold zero_crossing_borders
  by_cases hc : c7_border_condition H W data threshold i j
  · rw [if_pos (hiff.mp hc), if_pos hc]
  · rw [if_neg hc, if_neg]
    intro hb
    exact hc (hiff.mpr hb)

/-! ## Directional kernel alignment (border.py lines 17-83).
`Direction` is a Python Enum whose member VALUES are the four 3x3 matrices
(lines 18-37).  `align_vertical_kernel` (line 83) calls
`_rotate_matrix(kernel, self.value)`, i.e. it passes the whole 3x3 matrix value of the member as the `shift` argument of `np.roll` (line 79).  Since numpy 1.12,
`np.roll` raises `ValueError: shift and axis should be scalars or 1D
sequences` whenever the shift broadcasts against the axis tuple to an array of
dimension above 1, which a 3x3 nested list always does. -/

/-- The Direction enum members, border.py lines 17-37. -/
inductive Direction
  | VERTICAL
  | NEGATIVE_DIAGONAL
  | HORIZONTAL
  | POSITIVE_DIAGONAL
deriving DecidableEq

/-- The enum value of each Direction member: its literal 3x3 matrix,
border.py lines 18-37. -/
def Direction.value : Direction → List (List Int)
  | .VERTICAL => [[0, 1, 0], [0, 1, 0], [0, 1, 0]]
  | .NEGATIVE_DIAGONAL => [[1, 0, 0], [0, 1, 0], [0, 0, 1]]
  | .HORIZONTAL => [[0, 0, 0], [1, 1, 1], [0, 0, 0]]
  | .POSITIVE_DIAGONAL => [[0, 0, 1], [0, 1, 0], [1, 0, 0]]

/-- The FamousKernel enum members, border.py lines 85-115. -/
inductive FamousKernel
  | PREWITT
  | SOBEL
  | LAPLACE
  | JULIANA
  | SUSAN
deriving DecidableEq

/-- The enum value of each FamousKernel member, border.py lines 87-115. -/
def FamousKernel.value : FamousKernel → List (List Int)
  | .PREWITT => [[-1, 0, 1], [-1, 0, 1], [-1, 0, 1]]
  | .SOBEL => [[-1, 0, 1], [-2, 0, 2], [-1, 0, 1]]
  | .LAPLACE => [[0, -1, 0], [-1, 4, -1], [0, -1, 0]]
  | .JULIANA => [[1, 1, -1], [1, -2, -1], [1, 1, -1]]
  | .SUSAN =>
      [[0, 0, 1, 1, 1, 0, 0],
       [0, 1, 1, 1, 1, 1, 0],
       [1, 1, 1, 1, 1, 1, 1],
       [1, 1, 1, 1, 1, 1, 1],
       [1, 1, 1, 1, 1, 1, 1],
       [0, 1, 1, 1, 1, 1, 0],
       [0, 0, 1, 1, 1, 0, 0]]

/-- The `shift` argument passed to np.roll: either a scalar integer or (as in
the call under study) a whole matrix. -/
inductive NpRollShift
  | scalar (z : Int)
  | matrix (m : List (List Int))

/-- np.roll of a flat array by a scalar shift: element `i` of the result is
element `(i - shift) mod length` of the input. -/
def npRollScalar (l : List Int) (s : Int) : List Int :=
  (List.range l.length).map fun i =>
    l.getD ((((i : Int) - s) % (l.length : Int)).toNat) 0

/-- np.roll, with the numpy validation of the shift argument: a scalar shift
rolls the array, while a shift that broadcasts against the axis tuple to more
than one dimension (such as a 3x3 matrix) raises ValueError. -/
def npRoll (l : List Int) : NpRollShift → Option (List Int)
  | .scalar z => some (npRollScalar l z)
  | .matrix _ => none

/-- Matrix cell read with numpy-style row-major indexing. -/
def matGet (x : List (List Int)) (p : Nat × Nat) : Int :=
  (x.getD p.1 []).getD p.2 0

/-- Matrix cell write. -/
def matSet (x : List (List Int)) (p : Nat × Nat) (v : Int) : List (List Int) :=
  x.set p.1 ((x.getD p.1 []).set p.2 v)

/-- Direction._outer_slice (border.py lines 68-70) applied to the ring of the
sub-square with corners `(n, n)` and `(N - n - 1, N - n - 1)`: top row left to
right, right column top to bottom (interior rows), bottom row right to left
(excluding the first column), first column bottom to top (excluding the first
row). -/
def outerSliceIdx (N n : Nat) : List (Nat × Nat) :=
  let lo := n
  let hi := N - n - 1
  ((List.range (hi + 1 - lo)).map fun k => (lo, lo + k)) ++
  ((List.range (hi - lo - 1)).map fun k => (lo + 1 + k, hi)) ++
  ((List.range (hi - lo)).map fun k => (hi, hi - k)) ++
  ((List.range (hi - lo)).map fun k => (hi - k, lo))

/-- Write the rolled ring values back into the output matrix. -/
def writeRing (out : List (List Int)) (ring : List (Nat × Nat))
    (vals : List Int) : List (List Int) :=
  (ring.zip vals).foldl (fun o pv => matSet o pv.1 pv.2) out

/-- Direction._rotate_matrix (border.py lines 72-80): for each concentric ring
of the square matrix, roll the ring values by `shift` via np.roll and write
them back.  `np.empty_like` starts from an uninitialised array, but every cell
of a square matrix lies on exactly one ring and is written, so folding from
the input matrix is equivalent; if np.roll rejects the shift the whole call
raises. -/
def rotate_matrix (x : List (List Int)) (shift : NpRollShift) :
    Option (List (List Int)) :=
  let N := x.length
  (List.range ((N + 1) / 2)).foldlM
    (fun out n =>
      let ring := outerSliceIdx N n
      (npRoll (ring.map (matGet x)) shift).map (writeRing out ring))
    x

/-- Direction.align_vertical_kernel (border.py lines 82-83): calls
`_rotate_matrix(kernel, self.value)`, passing the 3x3 matrix value of the member as the
np.roll shift. -/
def Direction.align_vertical_kernel (d : Direction)
    (kernel : List (List Int)) : Option (List (List Int)) :=
  rotate_matrix kernel (NpRollShift.matrix d.value)

/-- C2: for every direction and every 3x3 kernel, align_vertical_kernel
raises (returns no aligned kernel at all), because the matrix enum value of the direction is passed to np.roll as its shift argument; no rotated kernels are
ever produced, so the claimed four pairwise-distinct rotations and the
four-step round trip never happen. -/
theorem c2_align_vertical_kernel_always_raises (d : Direction)
    (k : List (List Int)) (hk : k.length = 3) :
    d.align_vertical_kernel k = none := by
  unfold Direction.align_vertical_kernel rotate_matrix
  rw [hk]
  rfl

/-- C2 witness: aligning the Prewitt kernel for the VERTICAL direction raises. -/
theorem c2_align_vertical_kernel_always_raises_witness :
    FamousKernel.PREWITT.value.length = 3 ∧
      Direction.VERTICAL.align_vertical_kernel FamousKernel.PREWITT.value = none :=
  ⟨rfl, c2_align_vertical_kernel_always_raises Direction.VERTICAL
    FamousKernel.PREWITT.value rfl⟩

/-! ## Hough line boundary points (border.py lines 273-295). -/

/-- The Python round builtin: round half to even. -/
def pyRound (q : ℚ) : Int :=
  let f := ⌊q⌋
  let r := q - f
  if r < 1 / 2 then f
  else if 1 / 2 < r then f + 1
  else if f % 2 = 0 then f else f + 1

/-- np.isclose with the numpy default tolerances rtol = 1e-5, atol = 1e-8. -/
def npIsClose (a b : ℚ) : Bool :=
  decide (|a - b| ≤ 1 / 100000000 + (1 / 100000) * |b|)

/-- Modelled from the spec: LineDrawCmd (models/draw_cmd.py is not under
src/) — §6 describes an overlay line segment as two endpoints.  The per-endpoint
argument order (row, col) is fixed by get_border_points lines 287-295, whose
candidate tuples are (row, col) pairs. -/
structure LineDrawCmd where
  p1y : ℚ
  p1x : ℚ
  p2y : ℚ
  p2x : ℚ
deriving DecidableEq

/-- The boundary intersection candidates of get_border_points, border.py
lines 280-290, in source order.  The values sin(theta) and cos(theta) are
supplied as the exact rational parameters `sinT`, `cosT`, since the embedding
uses exact arithmetic in place of floating point trigonometry. -/
def border_candidates (rho sinT cosT : ℚ) (H W : Nat) : List (ℚ × ℚ) :=
  let maxY : ℚ := (H : ℚ) - 1
  let maxX : ℚ := (W : ℚ) - 1
  let x0 := rho / cosT
  let xf := (rho - maxY * sinT) / cosT
  let y0 := rho / sinT
  let yf := (rho - maxX * cosT) / sinT
  (if 0 < x0 ∧ x0 < maxX then [((0 : ℚ), x0)] else []) ++
  (if 0 < xf ∧ xf < maxX then [(maxY, xf)] else []) ++
  (if 0 < y0 ∧ y0 < maxY then [(y0, (0 : ℚ))] else []) ++
  (if 0 < yf ∧ yf < maxY then [(yf, maxX)] else [])

/-- get_border_points, border.py lines 273-295: when theta is close to 0 it
returns the segment from (row 0, col round(rho)) to (row H-1, col round(rho));
otherwise it collects the boundary candidates and raises ValueError unless
there are exactly two, returning the segment joining them. -/
def get_border_points (rho theta sinT cosT : ℚ) (H W : Nat) :
    Except String LineDrawCmd :=
  if npIsClose theta 0 then
    Except.ok ⟨0, (pyRound rho : ℚ), (H : ℚ) - 1, (pyRound rho : ℚ)⟩
  else
    let ans := border_candidates rho sinT cosT H W
    if ans.length ≠ 2 then Except.error "Cantidad incorrecta de puntos"
    else
      Except.ok ⟨(ans.getD 0 (0, 0)).1, (ans.getD 0 (0, 0)).2,
        (ans.getD 1 (0, 0)).1, (ans.getD 1 (0, 0)).2⟩

/-- The segment claim C5 asserts for theta close to 0: the horizontal line at
row rho, i.e. the segment at row round(rho) spanning all columns. -/
def c5_claimed_theta0_segment (rho : ℚ) (W : Nat) : LineDrawCmd :=
  ⟨(pyRound rho : ℚ), 0, (pyRound rho : ℚ), (W : ℚ) - 1⟩

/-- C5 counterexample: at rho = 2, theta = 0 on a 4x6 image the code returns
the segment from (0, 2) to (3, 2) — the vertical line at column 2 spanning
all rows — not the claimed horizontal line at row 2, which would be the
segment from (2, 0) to (2, 5). -/
theorem c5_theta0_returns_vertical_not_horizontal :
    get_border_points 2 0 0 1 4 6 =
        Except.ok { p1y := 0, p1x := 2, p2y := 3, p2x := 2 } ∧
      Except.ok { p1y := 0, p1x := 2, p2y := 3, p2x := 2 } ≠
        (Except.ok (c5_claimed_theta0_segment 2 6) : Except String LineDrawCmd) := by
  have hr : pyRound 2 = 2 := by norm_num [pyRound]
  constructor
  · unfold get_border_points
    rw [if_pos (by norm_num [npIsClose])]
    simp only [hr, Except.ok.injEq, LineDrawCmd.mk.injEq]
    norm_num
  · simp only [c5_claimed_theta0_segment, hr, ne_eq, Except.ok.injEq,
      LineDrawCmd.mk.injEq]
    norm_num

/-- C5 amended: when theta is close to 0 (numpy tolerance), get_border_points
returns the vertical segment at column round(rho) spanning rows 0 to H-1,
with no intersection counting; otherwise it returns the segment joining the
two boundary intersection candidates when there are exactly two of them, and
raises a fatal error (no partial output) whenever the candidate count is
anything other than two. -/
theorem c5_get_border_points_amended (rho theta sinT cosT : ℚ) (H W : Nat) :
    (npIsClose theta 0 = true →
      get_border_points rho theta sinT cosT H W =
        Except.ok ⟨0, (pyRound rho : ℚ), (H : ℚ) - 1, (pyRound rho : ℚ)⟩) ∧
    (npIsClose theta 0 = false →
      (∀ p q, border_candidates rho sinT cosT H W = [p, q] →
        get_border_points rho theta sinT cosT H W =
          Except.ok ⟨p.1, p.2, q.1, q.2⟩) ∧
      ((border_candidates rho sinT cosT H W).length ≠ 2 →
        get_border_points rho theta sinT cosT H W =
          Except.error "Cantidad incorrecta de puntos")) := by
  refine ⟨fun hcl => ?_, fun hcl => ⟨fun p q hpq => ?_, fun hlen => ?_⟩⟩
  · unfold get_border_points
    rw [if_pos hcl]
  · unfold get_border_points
    rw [if_neg (by simp [hcl])]
    simp only [hpq]
    norm_num
  · unfold get_border_points
    rw [if_neg (by simp [hcl])]
    simp only [if_pos hlen]

/-- C5 witness: at rho = 2, theta = 1 (with trig stand-ins sin = cos = 1) on a
5x5 image there are exactly two boundary candidates, (0, 2) and (2, 0), and
the segment joining them is returned; and at theta = 0 on a 4x6 image the
special-case branch returns the all-rows segment at column 7. -/
theorem c5_get_border_points_amended_witness :
    get_border_points 2 1 1 1 5 5 =
        Except.ok { p1y := 0, p1x := 2, p2y := 2, p2x := 0 } ∧
      get_border_points 7 0 0 1 4 6 =
        Except.ok { p1y := 0, p1x := 7, p2y := 3, p2x := 7 } := by
  constructor
  · exact ((c5_get_border_points_amended 2 1 1 1 5 5).2
      (by norm_num [npIsClose])).1 (0, 2) (2, 0) (by norm_num [border_candidates])
  · have h := (c5_get_border_points_amended 7 0 0 1 4 6).1 (by norm_num [npIsClose])
    rw [h]
    simp only [Except.ok.injEq, LineDrawCmd.mk.injEq]
    norm_num [pyRound]

/-! ## SUSAN corner/edge detector (border.py lines 210-225). -/

/-- Modelled from the spec: PaddingStrategy (transformations/sliding.py is not
under src/) — §4.1 names zero-fill and replicate-edge as the border policies a
caller selects explicitly. -/
inductive PaddingStrategy
  | zeroFill
  | replicateEdge

/-- Modelled from the spec: the out-of-bounds neighborhood lookup of the
sliding-window engine (§4.1, transformations/sliding.py is not under src/) —
an in-bounds coordinate reads the channel, an out-of-bounds one is resolved by
the padding strategy (zero-fill reads 0, replicate-edge reads the nearest
in-bounds pixel). -/
def padGet (ps : PaddingStrategy) (H W : Nat) (channel : Int × Int → ℚ)
    (y x : Int) : ℚ :=
  if 0 ≤ y ∧ y < (H : Int) ∧ 0 ≤ x ∧ x < (W : Int) then channel (y, x)
  else
    match ps with
    | .zeroFill => 0
    | .replicateEdge =>
        channel (max 0 (min y ((H : Int) - 1)), max 0 (min x ((W : Int) - 1)))

/-- The SUSAN 7x7 circular mask entry at (a, b), read from the
FamousKernel.SUSAN enum value (border.py lines 107-115). -/
def susanKernelAt (a b : Nat) : Int :=
  (FamousKernel.SUSAN.value.getD a []).getD b 0

/-- One summand of the SUSAN similarity count at output pixel `p` (border.py
lines 216-218): the absolute difference between the masked window value and
the center value, thresholded at 15 into 1 (similar) or 0.  The source
applies the two masked assignments `< 15 -> 1` then `>= 15 -> 0` in sequence;
their combined effect is this indicator. -/
def susanTerm (ps : PaddingStrategy) (H W : Nat) (channel : Int × Int → ℚ)
    (p : Int × Int) (a b : Nat) : ℚ :=
  if |padGet ps H W channel (p.1 - 3 + a) (p.2 - 3 + b) * (susanKernelAt a b : ℚ)
      - channel p| < 15 then 1 else 0

/-- The SUSAN similarity count at `p`: the sum of the indicators over the 7x7
window (border.py line 220). -/
def susanSum (ps : PaddingStrategy) (H W : Nat) (channel : Int × Int → ℚ)
    (p : Int × Int) : ℚ :=
  ((List.range 7).map fun a =>
    ((List.range 7).map fun b => susanTerm ps H W channel p a b).sum).sum

/-- susan_channel at one output pixel (border.py lines 210-225): the
similarity ratio `1 - sum / 49` (the kernel size is 49) is banded at
0.4 / 0.65 / 0.85 into 0, 63 or 255; the source applies the three masked
assignments sequentially, reproduced here. -/
def susan_channel (ps : PaddingStrategy) (H W : Nat) (channel : Int × Int → ℚ)
    (p : Int × Int) : ℚ :=
  let value := 1 - susanSum ps H W channel p / 49
  let v1 := if value < 2 / 5 ∨ 17 / 20 ≤ value then 0 else value
  let v2 := if 2 / 5 ≤ v1 ∧ v1 < 13 / 20 then 63 else v1
  if 13 / 20 ≤ v2 ∧ v2 < 17 / 20 then 255 else v2

/-- C8: on a channel of uniform constant intensity, SUSAN yields 0 at every
interior pixel (one whose full 7x7 mask lies inside the image): the
similarity ratio is 0 or 12/49, in both cases below the 0.4 corner band. -/
theorem c8_susan_uniform_interior_zero (ps : PaddingStrategy) (H W : Nat)
    (v : ℚ) (p : Int × Int) (h1 : 3 ≤ p.1) (h2 : p.1 + 3 < (H : Int))
    (h3 : 3 ≤ p.2) (h4 : p.2 + 3 < (W : Int)) :
    susan_channel ps H W (fun _ => v) p = 0 := by
  have hpad : ∀ a b : Nat, a < 7 → b < 7 →
      padGet ps H W (fun _ => v) (p.1 - 3 + a) (p.2 - 3 + b) = v := by
    intro a b ha hb
    have hcond : 0 ≤ p.1 - 3 + a ∧ p.1 - 3 + a < (H : Int) ∧
        0 ≤ p.2 - 3 + b ∧ p.2 - 3 + b < (W : Int) := by omega
    unfold padGet
    rw [if_pos hcond]
  have hk : ∀ a : Nat, a < 7 → ∀ b : Nat, b < 7 →
      susanKernelAt a b = 0 ∨ susanKernelAt a b = 1 := by decide
  by_cases hv : |v| < 15
  · have hterm : ∀ a ∈ List.range 7, ∀ b ∈ List.range 7,
        susanTerm ps H W (fun _ => v) p a b = 1 := by
      intro a ha b hb
      rw [List.mem_range] at ha hb
      unfold susanTerm
      rw [hpad a b ha hb]
      rcases hk a ha b hb with h | h <;> rw [h]
      · rw [if_pos (by push_cast; rw [mul_zero, zero_sub, abs_neg]; exact hv)]
      · rw [if_pos (by push_cast; rw [mul_one, sub_self, abs_zero]; norm_num)]
    have hsum : susanSum ps H W (fun _ => v) p = 49 := by
      unfold susanSum
      have h7 : ∀ a ∈ List.range 7,
          ((List.range 7).map fun b => susanTerm ps H W (fun _ => v) p a b).sum
            = (7 : ℚ) := by
        intro a ha
        rw [List.map_congr_left fun b hb => hterm a ha b hb]
        simp
        norm_num
      rw [List.map_congr_left h7]
      simp
      norm_num
    unfold susan_channel
    rw [hsum]
    norm_num
  · have hterm : ∀ a ∈ List.range 7, ∀ b ∈ List.range 7,
        susanTerm ps H W (fun _ => v) p a b =
          if susanKernelAt a b = 1 then (1 : ℚ) else 0 := by
      intro a ha b hb
      rw [List.mem_range] at ha hb
      unfold susanTerm
      rw [hpad a b ha hb]
      rcases hk a ha b hb with h | h <;> rw [h]
      · rw [if_neg (by push_cast; rw [mul_zero, zero_sub, abs_neg]; exact hv),
          if_neg (by norm_num)]
      · rw [if_pos (by push_cast; rw [mul_one, sub_self, abs_zero]; norm_num),
          if_pos rfl]
    have hsum : susanSum ps H W (fun _ => v) p = 37 := by
      unfold susanSum
      have h7 : ∀ a ∈ List.range 7,
          ((List.range 7).map fun b => susanTerm ps H W (fun _ => v) p a b).sum
            = ((List.range 7).map fun b =>
                if susanKernelAt a b = 1 then (1 : ℚ) else 0).sum := by
        intro a ha
        rw [List.map_congr_left fun b hb => hterm a ha b hb]
      rw [List.map_congr_left h7]
      norm_num [List.range_succ, susanKernelAt, FamousKernel.value]
    unfold susan_channel
    rw [hsum]
    norm_num

/-- C8 witness: a uniform 7x7 channel of intensity 5 with zero-fill padding
has SUSAN response 0 at its center pixel (3, 3). -/
theorem c8_susan_uniform_interior_zero_witness :
    susan_channel PaddingStrategy.zeroFill 7 7 (fun _ => 5) (3, 3) = 0 :=
  c8_susan_uniform_interior_zero PaddingStrategy.zeroFill 7 7 5 (3, 3)
    (by decide) (by decide) (by decide) (by decide)

/-! ## Canny border detector (border.py lines 297-349).
The pipeline is embedded stage by stage over function-represented float
channels.  Two operations have no rational closed form and are taken as
oracle parameters, universally quantified in the theorem: `sqrtFn` stands for
np.sqrt (line 310) and `angleFn` for the whole gradient-angle computation of
lines 313-316 (np.arctan2, shift into [0, pi], flip, np.rad2deg), whose range
in the source is [0, 180] degrees. -/

/-- Kernel matrix entry as a rational, rows then columns. -/
def kernelAt (m : List (List Int)) (a b : Nat) : ℚ :=
  ((m.getD a []).getD b 0 : Int)

/-- Modelled from the spec: weighted_sum of the sliding-window engine (§4.1,
transformations/sliding.py is not under src/) — for every pixel, elementwise
multiply the padded neighborhood centered on it by the kernel and sum; output
shape equals input shape. -/
def weighted_sum (ps : PaddingStrategy) (H W : Nat) (channel : Int × Int → ℚ)
    (kh kw : Nat) (kernel : Nat → Nat → ℚ) (p : Int × Int) : ℚ :=
  ((List.range kh).map fun (a : Nat) =>
    ((List.range kw).map fun (b : Nat) =>
      padGet ps H W channel (p.1 - (kh / 2 : Nat) + (a : Int))
          (p.2 - (kw / 2 : Nat) + (b : Int))
        * kernel a b).sum).sum

/-- Maximum of a list of rationals, with np.max semantics on a nonempty list
(the default is only reached on an empty list, which numpy rejects). -/
def listMax (l : List ℚ) : ℚ :=
  match l with
  | [] => 0
  | h :: t => t.foldl max h

/-- The quantized gradient direction of canny_channel (border.py lines
319-323): the discretised angle bands select Direction.from_angle(0 / 45 /
90 / 135).  The source writes the masks into an np.empty array; its angle is
always within [0, 180] so exactly one band matches, and the unreachable
fall-through defaults to the first mask. -/
def cannyDirection (theta : ℚ) : Direction :=
  if (0 ≤ theta ∧ theta < 45 / 2) ∨ (315 / 2 ≤ theta ∧ theta ≤ 180) then
    Direction.HORIZONTAL
  else if 45 / 2 ≤ theta ∧ theta < 135 / 2 then Direction.POSITIVE_DIAGONAL
  else if 135 / 2 ≤ theta ∧ theta < 225 / 2 then Direction.VERTICAL
  else if 225 / 2 ≤ theta ∧ theta < 315 / 2 then Direction.NEGATIVE_DIAGONAL
  else Direction.HORIZONTAL

/-- The non-maximum-suppression comparison value (border.py lines 326-327):
the maximum over the 3x3 padded window of the gradient modulus multiplied by
the direction mask. -/
def nmsMax (ps : PaddingStrategy) (H W : Nat) (gm : Int × Int → ℚ)
    (dirk : Nat → Nat → ℚ) (p : Int × Int) : ℚ :=
  listMax (((List.range 3).map fun (a : Nat) =>
    (List.range 3).map fun (b : Nat) =>
      padGet ps H W gm (p.1 - 1 + (a : Int)) (p.2 - 1 + (b : Int))
        * dirk a b).flatten)

/-- All pixel values of a grid in row-major order. -/
def gridVals (H W : Nat) (g : Int × Int → ℚ) : List ℚ :=
  ((List.range H).map fun (i : Nat) => (List.range W).map fun (j : Nat) =>
    g ((i : Int), (j : Int))).flatten

/-- Minimum of a list of rationals (np.min on a nonempty list). -/
def listMin (l : List ℚ) : ℚ :=
  match l with
  | [] => 0
  | h :: t => t.foldl min h

/-- Python int(): truncation toward zero. -/
def pyInt (q : ℚ) : Int :=
  if 0 ≤ q then ⌊q⌋ else ⌈q⌉

/-- normalize (models/image.py lines 313-326) on a float64 array, which always
takes the general branch: a constant array maps to the constant
min(|int(data[0,0])|, 255), any other array to (data - min)/(max - min)*255. -/
def normalize (H W : Nat) (g : Int × Int → ℚ) : Int × Int → ℚ :=
  let amax := listMax (gridVals H W g)
  let amin := listMin (gridVals H W g)
  if amax - amin = 0 then
    fun _ => ((min (pyInt (g (0, 0))).natAbs 255 : Nat) : ℚ)
  else
    fun p => (g p - amin) / (amax - amin) * 255

/-- The double-threshold step of canny_channel (border.py lines 334-335): the
two masked assignments are applied sequentially — first values at or above t2
become MAX_COLOR, then values at or below t1 (including freshly written
MAX_COLORs, when t1 is that large) become 0. -/
def cannyThreshold (t1 t2 : Int) (g : Int × Int → ℚ) : Int × Int → ℚ :=
  let g1 := fun p => if (t2 : ℚ) ≤ g p then (MAX_COLOR : ℚ) else g p
  fun p => if g1 p ≤ (t1 : ℚ) then 0 else g1 p

/-- List of integers from lo (inclusive) to hi (exclusive). -/
def intRangeList (lo hi : Int) : List Int :=
  (List.range (hi - lo).toNat).map fun (k : Nat) => lo + (k : Int)

/-- canny_drag_borders (border.py lines 297-301): when the pixel value is
strictly between the thresholds, replace it by MAX_COLOR if the maximum of
its clipped 3x3 neighborhood (which includes the pixel itself) is MAX_COLOR
and by 0 otherwise; all other pixels are left untouched. -/
def canny_drag_borders (t1 t2 : Int) (H W : Nat) (g : Int × Int → ℚ)
    (q : Int × Int) : Int × Int → ℚ :=
  if (t1 : ℚ) < g q ∧ g q < (t2 : ℚ) then
    let nmax := listMax
      (((intRangeList (max (q.1 - 1) 0) (min (q.1 + 2) H)).map fun r =>
        (intRangeList (max (q.2 - 1) 0) (min (q.2 + 2) W)).map fun c =>
          g (r, c)).flatten)
    fun r => if r = q then
        (if nmax = (MAX_COLOR : ℚ) then (MAX_COLOR : ℚ) else 0) else g r
  else g

/-- The pixels of an H x W grid in row-major order (border.py lines 340-342). -/
def rasterRowMajor (H W : Nat) : List (Int × Int) :=
  ((List.range H).map fun (r : Nat) => (List.range W).map fun (c : Nat) =>
    ((r : Int), (c : Int))).flatten

/-- The pixels of an H x W grid in column-major order (border.py lines
345-347). -/
def rasterColMajor (H W : Nat) : List (Int × Int) :=
  ((List.range W).map fun (c : Nat) => (List.range H).map fun (r : Nat) =>
    ((r : Int), (c : Int))).flatten

/-- One full drag pass: fold canny_drag_borders over the pixels in the given
order (border.py lines 340-347). -/
def cannyDragPass (t1 t2 : Int) (H W : Nat) (order : List (Int × Int))
    (g : Int × Int → ℚ) : Int × Int → ℚ :=
  order.foldl (canny_drag_borders t1 t2 H W) g

/-- The canny pipeline up to and including normalization (border.py lines
304-331): Prewitt derivatives, gradient modulus via the sqrt oracle,
direction quantization via the angle oracle, non-maximum suppression, then
normalize. -/
def cannyPreThreshold (sqrtFn : ℚ → ℚ) (angleFn : ℚ → ℚ → ℚ)
    (ps : PaddingStrategy) (H W : Nat) (channel : Int × Int → ℚ) :
    Int × Int → ℚ :=
  let prewitt := kernelAt FamousKernel.PREWITT.value
  let dx := fun p => weighted_sum ps H W channel 3 3 prewitt p
  let dy := fun p => weighted_sum ps H W channel 3 3
    (fun a b => prewitt (3 - 1 - b) a) p
  let gm := fun p => sqrtFn (dy p ^ 2 + dx p ^ 2)
  let gm2 := fun p =>
    let dirk := kernelAt (cannyDirection (angleFn (dy p) (dx p))).value
    if nmsMax ps H W gm dirk p ≠ gm p then 0 else gm p
  normalize H W gm2

/-- canny_channel (border.py lines 304-349): the pre-threshold pipeline,
double thresholding, then the row-major and column-major drag passes. -/
def canny_channel (sqrtFn : ℚ → ℚ) (angleFn : ℚ → ℚ → ℚ)
    (ps : PaddingStrategy) (H W : Nat) (channel : Int × Int → ℚ)
    (t1 t2 : Int) : Int × Int → ℚ :=
  cannyDragPass t1 t2 H W (rasterColMajor H W)
    (cannyDragPass t1 t2 H W (rasterRowMajor H W)
      (cannyThreshold t1 t2
        (cannyPreThreshold sqrtFn angleFn ps H W channel)))

/-- The hysteresis invariant: every pixel value is 0, MAX_COLOR, or strictly
between the two thresholds. -/
def cannyInv (t1 t2 : Int) (g : Int × Int → ℚ) : Prop :=
  ∀ q, g q = 0 ∨ g q = (MAX_COLOR : ℚ) ∨ ((t1 : ℚ) < g q ∧ g q < (t2 : ℚ))

/-- After double thresholding, the hysteresis invariant holds. -/
theorem cannyThreshold_inv (t1 t2 : Int) (g : Int × Int → ℚ) :
    cannyInv t1 t2 (cannyThreshold t1 t2 g) := by
  intro q
  unfold cannyThreshold
  by_cases h2 : (t2 : ℚ) ≤ g q
  · by_cases h1 : (MAX_COLOR : ℚ) ≤ (t1 : ℚ)
    · left
      simp [h2, h1]
    · right
      left
      simp only [h2, if_pos]
      rw [if_neg (by exact fun h => h1 h)]
  · by_cases h1 : g q ≤ (t1 : ℚ)
    · left
      simp [h2, h1]
    · right
      right
      simp only [if_neg h2]
      rw [if_neg h1]
      constructor
      · exact lt_of_not_le h1
      · exact lt_of_not_le h2

/-- canny_drag_borders changes no pixel other than the one it visits. -/
theorem canny_drag_borders_ne (t1 t2 : Int) (H W : Nat) (g : Int × Int → ℚ)
    (q r : Int × Int) (hne : r ≠ q) :
    canny_drag_borders t1 t2 H W g q r = g r := by
  unfold canny_drag_borders
  by_cases h : (t1 : ℚ) < g q ∧ g q < (t2 : ℚ)
  · simp only [if_pos h, if_neg hne]
  · rw [if_neg h]

/-- At the visited pixel, canny_drag_borders either leaves the value alone
(when it is not strictly between the thresholds) or writes 0 or MAX_COLOR. -/
theorem canny_drag_borders_self (t1 t2 : Int) (H W : Nat) (g : Int × Int → ℚ)
    (q : Int × Int) :
    (¬((t1 : ℚ) < g q ∧ g q < (t2 : ℚ)) ∧
        canny_drag_borders t1 t2 H W g q q = g q) ∨
      canny_drag_borders t1 t2 H W g q q = 0 ∨
      canny_drag_borders t1 t2 H W g q q = (MAX_COLOR : ℚ) := by
  unfold canny_drag_borders
  by_cases h : (t1 : ℚ) < g q ∧ g q < (t2 : ℚ)
  · right
    simp only [if_pos h, eq_self_iff_true, if_true]
    by_cases hm : listMax
        (((intRangeList (max (q.1 - 1) 0) (min (q.1 + 2) H)).map fun r =>
          (intRangeList (max (q.2 - 1) 0) (min (q.2 + 2) W)).map fun c =>
            g (r, c)).flatten) = (MAX_COLOR : ℚ)
    · right
      rw [if_pos hm]
    · left
      rw [if_neg hm]
  · left
    rw [if_neg h]
    exact ⟨h, rfl⟩

/-- canny_drag_borders preserves the hysteresis invariant. -/
theorem canny_drag_borders_inv (t1 t2 : Int) (H W : Nat) (g : Int × Int → ℚ)
    (q : Int × Int) (hg : cannyInv t1 t2 g) :
    cannyInv t1 t2 (canny_drag_borders t1 t2 H W g q) := by
  intro r
  by_cases hr : r = q
  · subst hr
    rcases canny_drag_borders_self t1 t2 H W g r with ⟨_, h⟩ | h | h
    · rw [h]
      exact hg r
    · left
      exact h
    · right
      left
      exact h
  · rw [canny_drag_borders_ne t1 t2 H W g q r hr]
    exact hg r

/-- A full drag pass preserves the hysteresis invariant. -/
theorem cannyDragPass_inv (t1 t2 : Int) (H W : Nat)
    (order : List (Int × Int)) (g : Int × Int → ℚ) (hg : cannyInv t1 t2 g) :
    cannyInv t1 t2 (cannyDragPass t1 t2 H W order g) := by
  induction order generalizing g with
  | nil => exact hg
  | cons q rest ih =>
      exact ih (canny_drag_borders t1 t2 H W g q)
        (canny_drag_borders_inv t1 t2 H W g q hg)

/-- A drag pass never turns a 0-or-MAX_COLOR pixel into anything else. -/
theorem cannyDragPass_keeps_binary (t1 t2 : Int) (H W : Nat)
    (order : List (Int × Int)) (g : Int × Int → ℚ) (r : Int × Int)
    (hr : g r = 0 ∨ g r = (MAX_COLOR : ℚ)) :
    cannyDragPass t1 t2 H W order g r = 0 ∨
      cannyDragPass t1 t2 H W order g r = (MAX_COLOR : ℚ) := by
  induction order generalizing g with
  | nil => exact hr
  | cons q rest ih =>
      show cannyDragPass t1 t2 H W rest (canny_drag_borders t1 t2 H W g q) r = 0 ∨
        cannyDragPass t1 t2 H W rest (canny_drag_borders t1 t2 H W g q) r
          = (MAX_COLOR : ℚ)
      apply ih
      by_cases hrq : r = q
      · subst hrq
        rcases canny_drag_borders_self t1 t2 H W g r with ⟨_, h⟩ | h | h
        · rw [h]
          exact hr
        · left
          exact h
        · right
          exact h
      · rw [canny_drag_borders_ne t1 t2 H W g q r hrq]
        exact hr

/-- After a drag pass, every visited pixel is 0 or MAX_COLOR, provided the
hysteresis invariant held on entry. -/
theorem cannyDragPass_visited_binary (t1 t2 : Int) (H W : Nat)
    (order : List (Int × Int)) (g : Int × Int → ℚ) (hg : cannyInv t1 t2 g)
    (r : Int × Int) (hr : r ∈ order) :
    cannyDragPass t1 t2 H W order g r = 0 ∨
      cannyDragPass t1 t2 H W order g r = (MAX_COLOR : ℚ) := by
  induction order generalizing g with
  | nil => exact absurd hr (List.not_mem_nil r)
  | cons q rest ih =>
      rcases List.mem_cons.mp hr with hq | hrest
      · subst hq
        show cannyDragPass t1 t2 H W rest (canny_drag_borders t1 t2 H W g r) r
            = 0 ∨
          cannyDragPass t1 t2 H W rest (canny_drag_borders t1 t2 H W g r) r
            = (MAX_COLOR : ℚ)
        apply cannyDragPass_keeps_binary
        rcases canny_drag_borders_self t1 t2 H W g r with ⟨hno, h⟩ | h | h
        · rw [h]
          rcases hg r with h0 | hm | hmid
          · left
            exact h0
          · right
            exact hm
          · exact absurd hmid hno
        · left
          exact h
        · right
          exact h
      · exact ih (canny_drag_borders t1 t2 H W g q)
          (canny_drag_borders_inv t1 t2 H W g q hg) hrest

/-- Every in-bounds pixel appears in the column-major raster order. -/
theorem mem_rasterColMajor (H W : Nat) (p : Int × Int) (h1 : 0 ≤ p.1)
    (h2 : p.1 < (H : Int)) (h3 : 0 ≤ p.2) (h4 : p.2 < (W : Int)) :
    p ∈ rasterColMajor H W := by
  have hw : p.2.toNat < W := by omega
  have hh : p.1.toNat < H := by omega
  have step1 : ((List.range H).map fun (r : Nat) =>
      ((r : Int), (p.2.toNat : Int))) ∈
      (List.range W).map fun (c : Nat) =>
        (List.range H).map fun (r : Nat) => ((r : Int), (c : Int)) := by
    apply List.mem_map.mpr
    exact ⟨p.2.toNat, List.mem_range.mpr hw, rfl⟩
  have step2 : p ∈ (List.range H).map fun (r : Nat) =>
      ((r : Int), (p.2.toNat : Int)) := by
    apply List.mem_map.mpr
    refine ⟨p.1.toNat, List.mem_range.mpr hh, ?_⟩
    show ((p.1.toNat : Int), (p.2.toNat : Int)) = p
    rw [Int.toNat_of_nonneg h1, Int.toNat_of_nonneg h3]
  exact List.mem_flatten.mpr ⟨_, step1, step2⟩

/-- C10: every pixel of the canny_channel output is 0 or MAX_COLOR, for every
channel, every pair of thresholds, every padding strategy and every choice of
the sqrt and angle oracles. -/
theorem c10_canny_binary (sqrtFn : ℚ → ℚ) (angleFn : ℚ → ℚ → ℚ)
    (ps : PaddingStrategy) (H W : Nat) (channel : Int × Int → ℚ)
    (t1 t2 : Int) (p : Int × Int) (h1 : 0 ≤ p.1) (h2 : p.1 < (H : Int))
    (h3 : 0 ≤ p.2) (h4 : p.2 < (W : Int)) :
    canny_channel sqrtFn angleFn ps H W channel t1 t2 p = 0 ∨
      canny_channel sqrtFn angleFn ps H W channel t1 t2 p = (MAX_COLOR : ℚ) := by
  unfold canny_channel
  apply cannyDragPass_visited_binary
  · apply cannyDragPass_inv
    apply cannyThreshold_inv
  · exact mem_rasterColMajor H W p h1 h2 h3 h4

/-- C10 witness: on a 1x1 zero channel with identity oracles and thresholds
1 < 2, the output pixel (0, 0) is 0 or MAX_COLOR. -/
theorem c10_canny_binary_witness :
    canny_channel id (fun _ _ => 0) PaddingStrategy.zeroFill 1 1 (fun _ => 0)
        1 2 (0, 0) = 0 ∨
      canny_channel id (fun _ _ => 0) PaddingStrategy.zeroFill 1 1 (fun _ => 0)
        1 2 (0, 0) = (MAX_COLOR : ℚ) :=
  c10_canny_binary id (fun _ _ => 0) PaddingStrategy.zeroFill 1 1 (fun _ => 0)
    1 2 (0, 0) (by decide) (by decide) (by decide) (by decide)

/-! ## Active contour (level-set) segmentation engine (border.py lines
391-549) and the Image model (models/image.py).
The state is the phi label array plus the four coordinate lists the loop
mutates (lout, lin, remove_lout, remove_lin — the removal lists are created
once, before the while loop, and never cleared).  Pixel intensities, sigma
and the threshold are modelled as integers; `np.linalg.norm(sigma -
image[point])` of a single-channel pixel is the absolute difference.  The
Python for loops iterate lists that grow by appends during iteration, which
the embedding reproduces by index-based recursion on an explicit fuel; the
while loop has no iteration cap in the source, so the embedding returns none
when its pass fuel runs out. -/

/-- A pixel coordinate (row, col), as the (y, x) tuples of border.py. -/
abbrev Pt := Int × Int

/-- in_bounds (border.py lines 421-422): argument order (x, y), checked
against shape = (height H, width W). -/
def in_bounds (x y : Int) (H W : Nat) : Bool :=
  decide (0 ≤ x ∧ x < (W : Int) ∧ 0 ≤ y ∧ y < (H : Int))

/-- is_lout (border.py lines 449-450). -/
def is_lout (val : Int) : Bool := decide (0 < val)

/-- is_lin (border.py lines 452-453). -/
def is_lin (val : Int) : Bool := decide (val < 0)

/-- The 4-connected neighbor offsets indices_4 (border.py line 457), in
source order. -/
def indices4 : List Pt := [(-1, 0), (0, -1), (1, 0), (0, 1)]

/-- In-place assignment `phi[point] = v`, functionally. -/
def phiSet (phi : Pt → Int) (p : Pt) (v : Int) : Pt → Int :=
  fun q => if q = p then v else phi q

/-- The active-contour context: the current frame single-channel intensity
grid and the sigma / threshold scalars. -/
structure AOCtx where
  H : Nat
  W : Nat
  img : Pt → Int
  sigma : Int
  threshold : Int

/-- The `np.linalg.norm(sigma - image[point])` distance of border.py lines
463 and 471, for a single-channel image. -/
def aoNorm (c : AOCtx) (p : Pt) : Int := |c.sigma - c.img p|

/-- The mutable state of the evolution loop of
active_outline_all_channels. -/
structure AOState where
  phi : Pt → Int
  lout : List Pt
  lin : List Pt
  removeLout : List Pt
  removeLin : List Pt
  flag : Bool

/-- check_value_state (border.py lines 436-447): if no in-bounds 4-neighbor
satisfies the condition, relabel the point and append it to the removal
collection. -/
def check_value_state (c : AOCtx) (point : Pt) (phi : Pt → Int)
    (removeCollection : List Pt) (condition : Int → Bool) (newValue : Int) :
    (Pt → Int) × List Pt :=
  let neighbor := indices4.all fun index =>
    !(in_bounds (point.2 + index.2) (point.1 + index.1) c.H c.W &&
      condition (phi (point.1 + index.1, point.2 + index.2)))
  if neighbor then (phiSet phi point newValue, removeCollection ++ [point])
  else (phi, removeCollection)

/-- One neighbor step of new_phi_values (border.py lines 425-434): promote a
target-labelled neighbor into the add collection, or re-validate an
opposite-boundary neighbor (label -new_value) via check_value_state with
relabel value -target. -/
def npvStep (c : AOCtx) (point : Pt) (target newValue : Int)
    (deleteCondition : Int → Bool)
    (st : (Pt → Int) × List Pt × List Pt) (index : Pt) :
    (Pt → Int) × List Pt × List Pt :=
  let phi := st.1
  let add := st.2.1
  let rem := st.2.2
  let q : Pt := (point.1 + index.1, point.2 + index.2)
  if in_bounds q.2 q.1 c.H c.W then
    if phi q = target then (phiSet phi q newValue, add ++ [q], rem)
    else if phi q = -newValue then
      let pr := check_value_state c q phi rem deleteCondition (-target)
      (pr.1, add, pr.2)
    else st
  else st

/-- new_phi_values (border.py lines 424-434): fold the neighbor step over the
four offsets in source order. -/
def new_phi_values (c : AOCtx) (phi : Pt → Int) (addCollection : List Pt)
    (removeCollection : List Pt) (point : Pt) (target newValue : Int)
    (deleteCondition : Int → Bool) : (Pt → Int) × List Pt × List Pt :=
  indices4.foldl (npvStep c point target newValue deleteCondition)
    (phi, addCollection, removeCollection)

/-- The body applied to lout[i] during the lout sweep (border.py lines
462-469): a point closer than the threshold to sigma switches to lin, is
marked for removal from lout, gets phi -1, and its neighborhood is updated
via new_phi_values(phi, lout, remove_lin, point, 3, 1, is_lout). -/
def loutSweepStep (c : AOCtx) (s : AOState) (point : Pt) : AOState :=
  if aoNorm c point < c.threshold then
    let lin' := s.lin ++ [point]
    let removeLout' := s.removeLout ++ [point]
    let phi' := phiSet s.phi point (-1)
    let npv := new_phi_values c phi' s.lout s.removeLin point 3 1 is_lout
    { phi := npv.1, lout := npv.2.1, lin := lin', removeLout := removeLout',
      removeLin := npv.2.2, flag := true }
  else s

/-- The body applied to lin[i] during the lin sweep (border.py lines
470-477): a point at least the threshold away from sigma switches to lout,
is marked for removal from lin, gets phi 1, and its neighborhood is updated
via new_phi_values(phi, lin, remove_lout, point, -3, -1, is_lin). -/
def linSweepStep (c : AOCtx) (s : AOState) (point : Pt) : AOState :=
  if c.threshold ≤ aoNorm c point then
    let lout' := s.lout ++ [point]
    let removeLin' := s.removeLin ++ [point]
    let phi' := phiSet s.phi point 1
    let npv := new_phi_values c phi' s.lin s.removeLout point (-3) (-1) is_lin
    { phi := npv.1, lout := lout', lin := npv.2.1, removeLout := npv.2.2,
      removeLin := removeLin', flag := true }
  else s

/-- The `for point in lout` sweep (border.py lines 462-469).  The Python for
loop iterates a list that new_phi_values appends to while it runs, so we
recurse on the index; one fuel unit is spent per visited index. -/
def loutSweep (c : AOCtx) : Nat → Nat → AOState → Option AOState
  | 0, _, _ => none
  | fuel + 1, i, s =>
    match s.lout[i]? with
    | none => some s
    | some point => loutSweep c fuel (i + 1) (loutSweepStep c s point)

/-- The `for point in lin` sweep (border.py lines 470-477), analogous. -/
def linSweep (c : AOCtx) : Nat → Nat → AOState → Option AOState
  | 0, _, _ => none
  | fuel + 1, i, s =>
    match s.lin[i]? with
    | none => some s
    | some point => linSweep c fuel (i + 1) (linSweepStep c s point)

/-- list(set(a) - set(b)) (border.py lines 478-479): the members of a not in
b, deduplicated; Python set iteration order is unspecified, so the model
fixes one canonical order. -/
def pySetDiff (a b : List Pt) : List Pt :=
  (a.filter fun p => !b.contains p).dedup

/-- One pass of the while loop body (border.py lines 461-479): reset the
flag, sweep lout, sweep lin, then materialize the two set differences (the
removal lists themselves are NOT cleared). -/
def aoPass (c : AOCtx) (sweepFuel : Nat) (s : AOState) : Option AOState :=
  match loutSweep c sweepFuel 0 { s with flag := false } with
  | none => none
  | some s1 =>
    match linSweep c sweepFuel 0 s1 with
    | none => none
    | some s2 =>
        some { s2 with lout := pySetDiff s2.lout s2.removeLout,
                       lin := pySetDiff s2.lin s2.removeLin }

/-- The while-flag evolution loop (border.py lines 460-479). -/
def aoLoop (c : AOCtx) : Nat → Nat → AOState → Option AOState
  | 0, _, _ => none
  | passFuel + 1, sweepFuel, s =>
    match aoPass c sweepFuel s with
    | none => none
    | some s' => if s'.flag then aoLoop c passFuel sweepFuel s' else some s'

/-- active_outline_all_channels (border.py lines 455-482): run the evolution
loop from the given lout, lin and phi with freshly created empty removal
lists; the returned state carries the final phi, lout and lin stored as the
internal results of line 482. -/
def active_outline_all_channels (c : AOCtx) (lout lin : List Pt)
    (phi : Pt → Int) (passFuel sweepFuel : Nat) : Option AOState :=
  aoLoop c passFuel sweepFuel
    { phi := phi, lout := lout, lin := lin, removeLout := [], removeLin := [],
      flag := true }

/-- The stored channel-transformation results of the previous frame consumed by
active_outline_inductive (border.py lines 538-539): threshold, sigma, lout,
lin and phi. -/
structure AOPrevResults where
  threshold : Int
  sigma : Int
  lout : List Pt
  lin : List Pt
  phi : Pt → Int

/-- active_outline_inductive (border.py lines 537-549): re-run the evolution
loop on the raw data of the current frame, seeded from the stored state of
the previous frame. -/
def active_outline_inductive (H W : Nat) (prev : AOPrevResults)
    (currentData : Pt → Int) (passFuel sweepFuel : Nat) : Option AOState :=
  active_outline_all_channels
    { H := H, W := W, img := currentData, sigma := prev.sigma,
      threshold := prev.threshold }
    prev.lout prev.lin prev.phi passFuel sweepFuel

/-- The phi array stored in the previous-frame results after an inductive
call: active_outline_inductive passes prev_results of phi (the stored numpy
array object itself) straight into the evolution loop, which assigns into it
in place (border.py lines 431, 446, 467, 475) and never copies or rebinds
it, so after the call the stored previous-frame phi holds the final phi of
the loop. -/
def prevPhiAfterInductive (H W : Nat) (prev : AOPrevResults)
    (currentData : Pt → Int) (passFuel sweepFuel : Nat) : Option (Pt → Int) :=
  (active_outline_inductive H W prev currentData passFuel sweepFuel).map
    fun s => s.phi

/-- The Image record (models/image.py lines 100-120), with the transformation
record type abstracted (Python stores duck-typed records). -/
structure MImage (τ : Type) where
  name : String
  data : Pt → Int
  movie : Option String
  transformations : List τ

/-- Image.transform (models/image.py lines 203-204): a NEW Image wrapping the
new data and the history extended by list concatenation
(self.transformations + [transformation] builds a fresh list, leaving the
original image record untouched). -/
def MImage.transform {τ : Type} (img : MImage τ) (newName : String)
    (newData : Pt → Int) (transformation : τ) : MImage τ :=
  { name := newName, data := newData, movie := img.movie,
    transformations := img.transformations ++ [transformation] }


/-- Membership characterization of pySetDiff. -/
theorem pySetDiff_mem (a b : List Pt) (p : Pt) :
    p ∈ pySetDiff a b ↔ p ∈ a ∧ p ∉ b := by
  simp [pySetDiff, List.mem_dedup, List.mem_filter]

/-- One-sided list invariant: every member of l not marked in rem carries the
phi label v. -/
def listInv (phi : Pt → Int) (l rem : List Pt) (v : Int) : Prop :=
  ∀ p ∈ l, p ∉ rem → phi p = v

/-- The loop invariant: unremoved lout members are labelled 1, unremoved lin
members are labelled -1. -/
def aoInv (s : AOState) : Prop :=
  listInv s.phi s.lout s.removeLout 1 ∧ listInv s.phi s.lin s.removeLin (-1)

/-- check_value_state either leaves phi and the removal collection alone or
relabels the point and appends it. -/
theorem check_value_state_cases (c : AOCtx) (point : Pt) (phi : Pt → Int)
    (rem : List Pt) (cond : Int → Bool) (newValue : Int) :
    check_value_state c point phi rem cond newValue = (phi, rem) ∨
    check_value_state c point phi rem cond newValue =
      (phiSet phi point newValue, rem ++ [point]) := by
  unfold check_value_state
  by_cases hnb : (indices4.all fun index =>
      !(in_bounds (point.2 + index.2) (point.1 + index.1) c.H c.W &&
        cond (phi (point.1 + index.1, point.2 + index.2)))) = true
  · right
    simp only [if_pos hnb]
  · left
    simp only [if_neg hnb]

/-- One new_phi_values neighbor step preserves both one-sided invariants:
the A side is the add collection with its fixed removal list, the B side is
the fixed opposite boundary list with the evolving removal collection. -/
theorem npvStep_listInv (c : AOCtx) (point : Pt) (t a : Int)
    (cond : Int → Bool) (A_rem B : List Pt) (htb : t ≠ -a)
    (haa : a ≠ -a) (st : (Pt → Int) × List Pt × List Pt) (index : Pt)
    (hA : listInv st.1 st.2.1 A_rem a) (hB : listInv st.1 B st.2.2 (-a)) :
    listInv (npvStep c point t a cond st index).1
        (npvStep c point t a cond st index).2.1 A_rem a ∧
      listInv (npvStep c point t a cond st index).1 B
        (npvStep c point t a cond st index).2.2 (-a) := by
  obtain ⟨phi, add, rem⟩ := st
  dsimp only at hA hB
  unfold npvStep
  dsimp only
  by_cases hb : in_bounds (point.2 + index.2) (point.1 + index.1) c.H c.W
  case neg => rw [if_neg hb]; exact ⟨hA, hB⟩
  rw [if_pos hb]
  by_cases h1 : phi (point.1 + index.1, point.2 + index.2) = t
  · rw [if_pos h1]
    dsimp only
    constructor
    · intro p hp hpr
      rcases List.mem_append.mp hp with hpo | hpn
      · by_cases hpq : p = (point.1 + index.1, point.2 + index.2)
        · subst hpq
          simp [phiSet]
        · rw [show phiSet phi (point.1 + index.1, point.2 + index.2) a p
              = phi p by simp [phiSet, hpq]]
          exact hA p hpo hpr
      · have hpq : p = (point.1 + index.1, point.2 + index.2) := by
          simpa using hpn
        subst hpq
        simp [phiSet]
    · intro p hp hpr
      by_cases hpq : p = (point.1 + index.1, point.2 + index.2)
      · have hval := hB p hp hpr
        rw [hpq] at hval
        exact absurd (h1.symm.trans hval) htb
      · rw [show phiSet phi (point.1 + index.1, point.2 + index.2) a p
            = phi p by simp [phiSet, hpq]]
        exact hB p hp hpr
  · rw [if_neg h1]
    by_cases h2 : phi (point.1 + index.1, point.2 + index.2) = -a
    · rw [if_pos h2]
      rcases check_value_state_cases c (point.1 + index.1, point.2 + index.2)
          phi rem cond (-t) with hcs | hcs <;> rw [hcs]
      · exact ⟨hA, hB⟩
      · dsimp only
        constructor
        · intro p hp hpr
          by_cases hpq : p = (point.1 + index.1, point.2 + index.2)
          · have hval := hA p hp hpr
            rw [hpq] at hval
            exact absurd (hval.symm.trans h2) haa
          · rw [show phiSet phi (point.1 + index.1, point.2 + index.2) (-t) p
                = phi p by simp [phiSet, hpq]]
            exact hA p hp hpr
        · intro p hp hpr
          have hprem : p ∉ rem := fun hc =>
            hpr (List.mem_append.mpr (Or.inl hc))
          have hpq : p ≠ (point.1 + index.1, point.2 + index.2) := fun hc =>
            hpr (List.mem_append.mpr (Or.inr (by simp [hc])))
          rw [show phiSet phi (point.1 + index.1, point.2 + index.2) (-t) p
              = phi p by simp [phiSet, hpq]]
          exact hB p hp hprem
    · rw [if_neg h2]
      exact ⟨hA, hB⟩

/-- Folding the neighbor step over any offset list preserves both one-sided
invariants. -/
theorem npvFold_listInv (c : AOCtx) (point : Pt) (t a : Int)
    (cond : Int → Bool) (A_rem B : List Pt) (htb : t ≠ -a)
    (haa : a ≠ -a) :
    ∀ (offsets : List Pt) (st : (Pt → Int) × List Pt × List Pt),
      listInv st.1 st.2.1 A_rem a → listInv st.1 B st.2.2 (-a) →
      listInv (offsets.foldl (npvStep c point t a cond) st).1
          (offsets.foldl (npvStep c point t a cond) st).2.1 A_rem a ∧
        listInv (offsets.foldl (npvStep c point t a cond) st).1 B
          (offsets.foldl (npvStep c point t a cond) st).2.2 (-a) := by
  intro offsets
  induction offsets with
  | nil => intro st hA hB; exact ⟨hA, hB⟩
  | cons o os ih =>
      intro st hA hB
      have h := npvStep_listInv c point t a cond A_rem B htb haa st o hA hB
      exact ih (npvStep c point t a cond st o) h.1 h.2

/-- The lout sweep body preserves the loop invariant. -/
theorem loutSweepStep_inv (c : AOCtx) (s : AOState) (point : Pt)
    (h : aoInv s) : aoInv (loutSweepStep c s point) := by
  unfold loutSweepStep
  by_cases hn : aoNorm c point < c.threshold
  case neg => rw [if_neg hn]; exact h
  rw [if_pos hn]
  dsimp only
  have hA : listInv (phiSet s.phi point (-1)) s.lout
      (s.removeLout ++ [point]) 1 := by
    intro p hp hpr
    have hp1 : p ∉ s.removeLout := fun hc =>
      hpr (List.mem_append.mpr (Or.inl hc))
    have hp2 : p ≠ point := fun hc =>
      hpr (List.mem_append.mpr (Or.inr (by simp [hc])))
    rw [show phiSet s.phi point (-1) p = s.phi p by simp [phiSet, hp2]]
    exact h.1 p hp hp1
  have hB : listInv (phiSet s.phi point (-1)) (s.lin ++ [point])
      s.removeLin (-1) := by
    intro p hp hpr
    by_cases hpq : p = point
    · subst hpq
      simp [phiSet]
    · rcases List.mem_append.mp hp with hpo | hpn
      · rw [show phiSet s.phi point (-1) p = s.phi p by simp [phiSet, hpq]]
        exact h.2 p hpo hpr
      · exact absurd (by simpa using hpn) hpq
  have hfold := npvFold_listInv c point 3 1 is_lout (s.removeLout ++ [point])
    (s.lin ++ [point]) (by norm_num) (by norm_num) indices4
    (phiSet s.phi point (-1), s.lout, s.removeLin) hA hB
  exact ⟨hfold.1, hfold.2⟩

/-- The lin sweep body preserves the loop invariant. -/
theorem linSweepStep_inv (c : AOCtx) (s : AOState) (point : Pt)
    (h : aoInv s) : aoInv (linSweepStep c s point) := by
  unfold linSweepStep
  by_cases hn : c.threshold ≤ aoNorm c point
  case neg => rw [if_neg hn]; exact h
  rw [if_pos hn]
  dsimp only
  have hA : listInv (phiSet s.phi point 1) s.lin
      (s.removeLin ++ [point]) (-1) := by
    intro p hp hpr
    have hp1 : p ∉ s.removeLin := fun hc =>
      hpr (List.mem_append.mpr (Or.inl hc))
    have hp2 : p ≠ point := fun hc =>
      hpr (List.mem_append.mpr (Or.inr (by simp [hc])))
    rw [show phiSet s.phi point 1 p = s.phi p by simp [phiSet, hp2]]
    exact h.2 p hp hp1
  have hB : listInv (phiSet s.phi point 1) (s.lout ++ [point])
      s.removeLout (- -1) := by
    intro p hp hpr
    by_cases hpq : p = point
    · subst hpq
      simp [phiSet]
    · rcases List.mem_append.mp hp with hpo | hpn
      · rw [show phiSet s.phi point 1 p = s.phi p by simp [phiSet, hpq]]
        simpa using h.1 p hpo hpr
      · exact absurd (by simpa using hpn) hpq
  have hfold := npvFold_listInv c point (-3) (-1) is_lin
    (s.removeLin ++ [point]) (s.lout ++ [point]) (by norm_num)
    (by norm_num) indices4 (phiSet s.phi point 1, s.lin, s.removeLout) hA hB
  refine ⟨?_, hfold.1⟩
  intro p hp hpr
  simpa using hfold.2 p hp hpr

/-- The lout sweep preserves the loop invariant. -/
theorem loutSweep_inv (c : AOCtx) :
    ∀ (fuel i : Nat) (s s' : AOState), aoInv s →
      loutSweep c fuel i s = some s' → aoInv s' := by
  intro fuel
  induction fuel with
  | zero =>
      intro i s s' _ h
      exact absurd h (by simp [loutSweep])
  | succ n ih =>
      intro i s s' hs h
      unfold loutSweep at h
      cases hg : s.lout[i]? with
      | none =>
          rw [hg] at h
          cases h
          exact hs
      | some point =>
          rw [hg] at h
          exact ih (i + 1) _ s' (loutSweepStep_inv c s point hs) h

/-- The lin sweep preserves the loop invariant. -/
theorem linSweep_inv (c : AOCtx) :
    ∀ (fuel i : Nat) (s s' : AOState), aoInv s →
      linSweep c fuel i s = some s' → aoInv s' := by
  intro fuel
  induction fuel with
  | zero =>
      intro i s s' _ h
      exact absurd h (by simp [linSweep])
  | succ n ih =>
      intro i s s' hs h
      unfold linSweep at h
      cases hg : s.lin[i]? with
      | none =>
          rw [hg] at h
          cases h
          exact hs
      | some point =>
          rw [hg] at h
          exact ih (i + 1) _ s' (linSweepStep_inv c s point hs) h

/-- Soundness of one state: every lout member is labelled 1 and every lin
member -1. -/
def aoSound (s : AOState) : Prop :=
  (∀ p ∈ s.lout, s.phi p = 1) ∧ (∀ p ∈ s.lin, s.phi p = -1)

/-- One pass started from an invariant state yields an invariant AND sound
state: the closing set differences discard exactly the removal-marked
members. -/
theorem aoPass_inv (c : AOCtx) (sweepFuel : Nat) (s s' : AOState)
    (hs : aoInv s) (h : aoPass c sweepFuel s = some s') :
    aoInv s' ∧ aoSound s' := by
  unfold aoPass at h
  split at h
  next => cases h
  next s1 h1 =>
      split at h
      next => cases h
      next s2 h2 =>
          cases h
          have hs0 : aoInv { s with flag := false } := ⟨hs.1, hs.2⟩
          have hs1 : aoInv s1 :=
            loutSweep_inv c sweepFuel 0 { s with flag := false } s1 hs0 h1
          have hs2 : aoInv s2 := linSweep_inv c sweepFuel 0 s1 s2 hs1 h2
          have hsound : aoSound { s2 with
              lout := pySetDiff s2.lout s2.removeLout,
              lin := pySetDiff s2.lin s2.removeLin } := by
            constructor
            · intro p hp
              obtain ⟨hm, hr⟩ := (pySetDiff_mem s2.lout s2.removeLout p).mp hp
              exact hs2.1 p hm hr
            · intro p hp
              obtain ⟨hm, hr⟩ := (pySetDiff_mem s2.lin s2.removeLin p).mp hp
              exact hs2.2 p hm hr
          refine ⟨⟨?_, ?_⟩, hsound⟩
          · intro p hp _
            exact hsound.1 p hp
          · intro p hp _
            exact hsound.2 p hp

/-- The evolution loop started from an invariant state returns a sound
state whenever it returns at all. -/
theorem aoLoop_sound (c : AOCtx) :
    ∀ (passFuel sweepFuel : Nat) (s s' : AOState), aoInv s →
      aoLoop c passFuel sweepFuel s = some s' → aoSound s' := by
  intro passFuel
  induction passFuel with
  | zero =>
      intro sweepFuel s s' _ h
      exact absurd h (by simp [aoLoop])
  | succ n ih =>
      intro sweepFuel s s' hs h
      unfold aoLoop at h
      split at h
      next => cases h
      next s1 hp =>
          obtain ⟨hinv1, hsound1⟩ := aoPass_inv c sweepFuel s s1 hs hp
          split at h
          next => exact ih sweepFuel s1 s' hinv1 h
          next =>
            cases h
            exact hsound1


/-- The narrow-band correspondence of claim C4 on an H x W grid: a pixel has
phi 1 exactly when it is in lout, and phi -1 exactly when it is in lin. -/
def aoCorrespondence (H W : Nat) (phi : Pt → Int) (lout lin : List Pt) : Prop :=
  ∀ y : Nat, y < H → ∀ x : Nat, x < W →
    ((phi ((y : Int), (x : Int)) = 1 ↔ ((y : Int), (x : Int)) ∈ lout) ∧
     (phi ((y : Int), (x : Int)) = -1 ↔ ((y : Int), (x : Int)) ∈ lin))

instance aoCorrespondence_decidable (H W : Nat) (phi : Pt → Int)
    (lout lin : List Pt) : Decidable (aoCorrespondence H W phi lout lin) := by
  unfold aoCorrespondence
  infer_instance

/-- Counterexample frame for C3/C4: a 1 x 4 single-channel image. -/
def cexImg : Pt → Int := fun p => if p = (0, 2) then 100 else 0

/-- Counterexample level-set labels: phi = [1, -1, -1, -3] on the single
row (3 outside the grid), matching lout = [(0,0)] and lin = [(0,1), (0,2)]. -/
def cexPhi : Pt → Int := fun p =>
  if p = (0, 0) then 1 else if p = (0, 1) then -1 else if p = (0, 2) then -1
  else if p = (0, 3) then -3 else 3

/-- Counterexample context: sigma 0 and threshold 10 on the 1 x 4 frame. -/
def cexCtx : AOCtx := { H := 1, W := 4, img := cexImg, sigma := 0, threshold := 10 }

/-- Counterexample previous-frame state for the inductive mode. -/
def cexPrev : AOPrevResults :=
  { threshold := 10, sigma := 0, lout := [(0, 0)], lin := [(0, 1), (0, 2)],
    phi := cexPhi }

/-- C4 counterexample: the 1 x 4 input state above satisfies the phi/list
correspondence, the loop terminates on it, and the returned state violates
the correspondence: during the single productive pass the pixel (0, 1) is
demoted out of lin (entering remove_lin) and then re-promoted into lin, and
the closing set difference — computed against the never-cleared removal list
— drops it from the returned lin even though its phi is -1. -/
theorem c4_correspondence_not_preserved :
    aoCorrespondence 1 4 cexPhi [(0, 0)] [(0, 1), (0, 2)] ∧
    ((active_outline_all_channels cexCtx [(0, 0)] [(0, 1), (0, 2)] cexPhi
        5 20).map
      fun s => decide (aoCorrespondence 1 4 s.phi s.lout s.lin)) = some false := by
  constructor
  · decide
  · decide

/-- C4 amended: only the list-to-phi direction of the correspondence is
preserved: whenever the evolution loop terminates on a state whose lout
members are all labelled 1 and lin members all labelled -1, the returned
state again has every returned-lout member labelled 1 and every returned-lin
member labelled -1.  The converse direction (phi 1 implies membership in
lout, phi -1 implies membership in lin) can fail, as the counterexample
shows, because the removal lists are never cleared. -/
theorem c4_active_outline_sound (c : AOCtx) (lout lin : List Pt)
    (phi : Pt → Int) (passFuel sweepFuel : Nat) (s : AOState)
    (hlout : ∀ p ∈ lout, phi p = 1) (hlin : ∀ p ∈ lin, phi p = -1)
    (hrun : active_outline_all_channels c lout lin phi passFuel sweepFuel
      = some s) :
    (∀ p ∈ s.lout, s.phi p = 1) ∧ (∀ p ∈ s.lin, s.phi p = -1) := by
  have hinv : aoInv
      { phi := phi, lout := lout, lin := lin, removeLout := [],
        removeLin := [], flag := true } :=
    ⟨fun p hp _ => hlout p hp, fun p hp _ => hlin p hp⟩
  exact aoLoop_sound c passFuel sweepFuel _ s hinv hrun

/-- C4 witness: on the concrete 1 x 4 run of the counterexample frame the
soundness theorem applies and the returned lists are correctly labelled. -/
theorem c4_active_outline_sound_witness :
    ((active_outline_all_channels cexCtx [(0, 0)] [(0, 1), (0, 2)] cexPhi
        5 20).map
      fun s => decide ((∀ p ∈ s.lout, s.phi p = 1) ∧
        (∀ p ∈ s.lin, s.phi p = -1))) = some true := by
  have hsome : (active_outline_all_channels cexCtx [(0, 0)] [(0, 1), (0, 2)]
      cexPhi 5 20).isSome = true := by decide
  obtain ⟨s, hrun⟩ := Option.isSome_iff_exists.mp hsome
  have hsound := c4_active_outline_sound cexCtx [(0, 0)] [(0, 1), (0, 2)]
    cexPhi 5 20 s (by decide) (by decide) hrun
  rw [hrun]
  simp only [Option.map_some']
  rw [decide_eq_true hsound]

/-- A lout sweep over a fixpoint state (no lout point closer than the
threshold to sigma) changes nothing, given enough fuel to walk the list. -/
theorem loutSweep_fixpoint (c : AOCtx) :
    ∀ (fuel i : Nat) (s : AOState),
      (∀ p ∈ s.lout, ¬(aoNorm c p < c.threshold)) →
      s.lout.length - i < fuel →
      loutSweep c fuel i s = some s := by
  intro fuel
  induction fuel with
  | zero =>
      intro i s _ hlen
      omega
  | succ n ih =>
      intro i s hfix hlen
      unfold loutSweep
      cases hg : s.lout[i]? with
      | none => rfl
      | some point =>
          have hmem : point ∈ s.lout := List.getElem?_mem hg
          have hi : i < s.lout.length := (List.getElem?_eq_some.mp hg).1
          have hstep : loutSweepStep c s point = s := by
            unfold loutSweepStep
            rw [if_neg (hfix point hmem)]
          show loutSweep c n (i + 1) (loutSweepStep c s point) = some s
          rw [hstep]
          exact ih (i + 1) s hfix (by omega)

/-- A lin sweep over a fixpoint state (every lin point closer than the
threshold to sigma) changes nothing, given enough fuel. -/
theorem linSweep_fixpoint (c : AOCtx) :
    ∀ (fuel i : Nat) (s : AOState),
      (∀ p ∈ s.lin, aoNorm c p < c.threshold) →
      s.lin.length - i < fuel →
      linSweep c fuel i s = some s := by
  intro fuel
  induction fuel with
  | zero =>
      intro i s _ hlen
      omega
  | succ n ih =>
      intro i s hfix hlen
      unfold linSweep
      cases hg : s.lin[i]? with
      | none => rfl
      | some point =>
          have hmem : point ∈ s.lin := List.getElem?_mem hg
          have hi : i < s.lin.length := (List.getElem?_eq_some.mp hg).1
          have hstep : linSweepStep c s point = s := by
            unfold linSweepStep
            rw [if_neg (not_le.mpr (hfix point hmem))]
          show linSweep c n (i + 1) (linSweepStep c s point) = some s
          rw [hstep]
          exact ih (i + 1) s hfix (by omega)

/-- One pass over a fixpoint state only resets the flag and materializes the
two set differences. -/
theorem aoPass_fixpoint (c : AOCtx) (sweepFuel : Nat) (s : AOState)
    (hlo : ∀ p ∈ s.lout, ¬(aoNorm c p < c.threshold))
    (hli : ∀ p ∈ s.lin, aoNorm c p < c.threshold)
    (hf1 : s.lout.length < sweepFuel) (hf2 : s.lin.length < sweepFuel) :
    aoPass c sweepFuel s =
      some { s with
              flag := false,
              lout := pySetDiff s.lout s.removeLout,
              lin := pySetDiff s.lin s.removeLin } := by
  have h1 : loutSweep c sweepFuel 0 { s with flag := false }
      = some { s with flag := false } :=
    loutSweep_fixpoint c sweepFuel 0 { s with flag := false } hlo
      (show s.lout.length - 0 < sweepFuel by omega)
  have h2 : linSweep c sweepFuel 0 { s with flag := false }
      = some { s with flag := false } :=
    linSweep_fixpoint c sweepFuel 0 { s with flag := false } hli
      (show s.lin.length - 0 < sweepFuel by omega)
  unfold aoPass
  simp only [h1, h2]

/-- Membership in a set difference against the empty removal list is just
membership (up to the deduplication the model fixes). -/
theorem pySetDiff_nil_mem (l : List Pt) (p : Pt) :
    p ∈ pySetDiff l [] ↔ p ∈ l := by
  simp [pySetDiff, List.mem_dedup, List.mem_filter]

/-- C6: inductive active-contour mode seeded from a fixpoint state of the
evolution loop (no lout point within the threshold of sigma, every lin point
within it — as happens on two identical consecutive frames whose previous
run converged) converges in the very first pass (pass fuel 1 suffices) and
returns phi unchanged and lout/lin with exactly the same members as the
seeded state (the source rebuilds them via list(set(...)), which the model
renders as deduplication). -/
theorem c6_inductive_fixpoint (H W : Nat) (prev : AOPrevResults)
    (cur : Pt → Int) (sweepFuel : Nat)
    (hlo : ∀ p ∈ prev.lout, ¬(|prev.sigma - cur p| < prev.threshold))
    (hli : ∀ p ∈ prev.lin, |prev.sigma - cur p| < prev.threshold)
    (hf1 : prev.lout.length < sweepFuel) (hf2 : prev.lin.length < sweepFuel) :
    active_outline_inductive H W prev cur 1 sweepFuel =
      some { phi := prev.phi, lout := pySetDiff prev.lout [],
             lin := pySetDiff prev.lin [], removeLout := [], removeLin := [],
             flag := false } ∧
    (∀ p : Pt, p ∈ pySetDiff prev.lout [] ↔ p ∈ prev.lout) ∧
    (∀ p : Pt, p ∈ pySetDiff prev.lin [] ↔ p ∈ prev.lin) := by
  refine ⟨?_, fun p => pySetDiff_nil_mem prev.lout p,
    fun p => pySetDiff_nil_mem prev.lin p⟩
  unfold active_outline_inductive active_outline_all_channels aoLoop
  have hp := aoPass_fixpoint
    { H := H, W := W, img := cur, sigma := prev.sigma,
      threshold := prev.threshold } sweepFuel
    { phi := prev.phi, lout := prev.lout, lin := prev.lin, removeLout := [],
      removeLin := [], flag := true } hlo hli hf1 hf2
  simp only [hp]
  rfl

/-- C6 witness: a 1 x 2 frame with a fixpoint seed state (lout point at
distance 100 from sigma, lin point at distance 0, threshold 10) converges in
one pass with the same phi and the same lists. -/
theorem c6_inductive_fixpoint_witness :
    active_outline_inductive 1 2
        { threshold := 10, sigma := 0, lout := [(0, 0)], lin := [(0, 1)],
          phi := cexPhi }
        (fun p => if p = (0, 0) then 100 else 0) 1 2 =
      some { phi := cexPhi, lout := pySetDiff [(0, 0)] [],
             lin := pySetDiff [(0, 1)] [], removeLout := [], removeLin := [],
             flag := false } :=
  (c6_inductive_fixpoint 1 2
    { threshold := 10, sigma := 0, lout := [(0, 0)], lin := [(0, 1)],
      phi := cexPhi }
    (fun p => if p = (0, 0) then 100 else 0) 2
    (by decide) (by decide) (by decide) (by decide)).1

/-- C3 counterexample: on the concrete 1 x 4 inductive run, the phi array
stored in the channel-transformation results of the previous frame is mutated in
place by the evolution loop: after the call it holds -1 at pixel (0, 0)
where the stored value before the call was 1 (similarly the stored lout/lin
list objects receive in-place appends during the first pass). -/
theorem c3_inductive_mutates_prev_phi :
    ((prevPhiAfterInductive 1 4 cexPrev cexImg 5 20).map fun phi => phi (0, 0))
        = some (-1) ∧
      cexPrev.phi (0, 0) = 1 := by
  constructor
  · decide
  · decide

/-- C3 amended: Image.transform is append-only — it returns a new Image
whose history is the old list extended with the new record by concatenation
and whose data is the new array, leaving the original record untouched — but
active_outline_inductive is NOT mutation-free: the stored previous-frame
phi array is threaded directly through the evolution loop (never copied), so
after the call it holds the final phi of the loop, which differs from the stored
value whenever any boundary point moves. -/
theorem c3_transform_append_only_inductive_aliases {τ : Type}
    (img : MImage τ) (newName : String) (newData : Pt → Int) (t : τ)
    (H W : Nat) (prev : AOPrevResults) (cur : Pt → Int)
    (passFuel sweepFuel : Nat) :
    (img.transform newName newData t).transformations
        = img.transformations ++ [t] ∧
    (img.transform newName newData t).data = newData ∧
    prevPhiAfterInductive H W prev cur passFuel sweepFuel =
      (active_outline_all_channels
        { H := H, W := W, img := cur, sigma := prev.sigma,
          threshold := prev.threshold }
        prev.lout prev.lin prev.phi passFuel sweepFuel).map (fun s => s.phi) :=
  ⟨rfl, rfl, rfl⟩

end Ati
